import Mathlib

/-!
Verification of the German Tank Problem frontend (razaool/german-tanks-)
against its natural-language specification.

The repository's frontend (React/TypeScript) is embedded shallowly:
numbers handled by the code as integers become `ℤ`/`ℕ`, floating-point
quantities become `ℚ`, strings become `List Char` where character-level
behaviour matters, and TypeScript interfaces become Lean structures.
The backend statistical engine (`backend/src/estimators.py`,
`backend/src/simulation.py`) is not part of the source tree; where a claim
depends on it, the definition is modelled from the specification and is
marked as such in its doc comment.
-/

namespace GermanTanks

/-- Error taxonomy of the spec (§7): `InvalidParameter` for out-of-domain
inputs, `GridTooLarge` for an oversized Bayesian grid. -/
inductive ErrorKind where
  | InvalidParameter : ErrorKind
  | GridTooLarge : ErrorKind
deriving DecidableEq, Repr

/-! ## SimulationControls.tsx

`const isValid = sampleSize < truePopulation && sampleSize >= 2 &&
truePopulation >= 100;` — the submit button is enabled exactly when
`isValid` holds (and no request is in flight). -/

/-- Embedding of `isValid` from
`src/frontend/src/components/SimulationControls.tsx` (line 23). -/
def isValid (truePopulation sampleSize : ℤ) : Bool :=
  decide (sampleSize < truePopulation) && decide (sampleSize ≥ 2) &&
    decide (truePopulation ≥ 100)

/-! ## App.tsx — accuracy-sweep request generation

```
const minSample = 5;
const maxSample = Math.max(sampleSize * 2, 100);
const numPoints = 10;
const step = Math.floor((maxSample - minSample) / (numPoints - 1));
const sampleSizes = Array.from({ length: numPoints }, (_, i) => minSample + i * step);
```
`Math.floor` of the quotient coincides with `Int.ediv` (Lean's `/` on `ℤ`)
because the divisor `9` is positive. -/

/-- Embedding of the `sampleSizes` computation in `handleSimulate`,
`src/frontend/src/App.tsx` (lines 31–40). -/
def sampleSizes (sampleSize : ℤ) : List ℤ :=
  let minSample : ℤ := 5
  let maxSample : ℤ := max (sampleSize * 2) 100
  let numPoints : ℕ := 10
  let step : ℤ := (maxSample - minSample) / ((numPoints : ℤ) - 1)
  (List.range numPoints).map (fun i => minSample + (i : ℤ) * step)

/-- The step used by the sweep, named for the proofs below. -/
def sweepStep (sampleSize : ℤ) : ℤ := (max (sampleSize * 2) 100 - 5) / 9

/-! ## Estimators (spec §4.1)

The estimator implementations live in `backend/src/estimators.py`, which is
not part of the available source tree (the README documents the formulas and
the App footer displays them). -/

/-- Modelled from the spec: `backend/src/estimators.py` is missing from the
source tree; §4.1 gives `naive_estimate(m) = m`. -/
def naive_estimate (m : ℚ) : ℚ := m

/-- Modelled from the spec: `backend/src/estimators.py` is missing from the
source tree; §4.1 gives `mvue_estimate(m, k) = m·(1 + 1/k) − 1`, failing
with `InvalidParameter` if `k = 0` (division by zero). -/
def mvue_estimate (m : ℚ) (k : ℕ) : Except ErrorKind ℚ :=
  if k = 0 then .error .InvalidParameter
  else .ok (m * (1 + 1 / (k : ℚ)) - 1)

/-! ## types/simulation.ts — the §6 data contracts

Each TypeScript interface becomes a Lean structure with the same field
names; `number` fields holding integers become `ℤ`, float fields `ℚ`. -/

/-- Embedding of `SimulationResponse.metadata`,
`src/frontend/src/types/simulation.ts` (lines 19–22). -/
structure SimulationMetadata where
  iterations : ℤ
  computation_time_ms : ℤ

/-- Embedding of `SimulationResponse`,
`src/frontend/src/types/simulation.ts` (lines 10–23). -/
structure SimulationResponse where
  true_population : ℤ
  sample_size : ℤ
  naive_estimates : List ℚ
  mvue_estimates : List ℚ
  naive_rmse : ℚ
  mvue_rmse : ℚ
  naive_bias : ℚ
  mvue_bias : ℚ
  metadata : SimulationMetadata

/-- Embedding of `AccuracyDataPoint`,
`src/frontend/src/types/simulation.ts` (lines 35–39). -/
structure AccuracyDataPoint where
  sample_size : ℤ
  naive_rmse : ℚ
  mvue_rmse : ℚ

/-- Embedding of `AccuracyResponse`,
`src/frontend/src/types/simulation.ts` (lines 30–33). -/
structure AccuracyResponse where
  true_population : ℤ
  results : List AccuracyDataPoint

/-- The member names of the `metadata` object literal type inside
`SimulationResponse`, transcribed in source order from
`src/frontend/src/types/simulation.ts` lines 19–22. -/
def simulationMetadataFieldNames : List String :=
  ["iterations", "computation_time_ms"]

/-- The names exported by the type module
`src/frontend/src/types/simulation.ts`, transcribed in source order.
The file declares exactly these six interfaces and nothing else. -/
def simulationTsExports : List String :=
  ["SimulationRequest", "SimulationResponse", "AccuracyRequest",
   "AccuracyResponse", "AccuracyDataPoint", "HistogramBin"]

/-- The names the API client `src/frontend/src/services/api.ts` imports
from `'../types/simulation'`, transcribed in source order from its import
declaration. -/
def apiTsSimulationImports : List String :=
  ["SimulationRequest", "SimulationResponse", "AccuracyRequest",
   "AccuracyResponse", "BayesianRequest", "BayesianResponse"]

/-! ## Bayesian posterior engine (spec §4.4)

The engine lives in the backend, which is missing from the source tree;
it is modelled from the spec in exact rational arithmetic (the spec's
log-domain evaluation followed by log-sum-exp normalization computes the
same normalized ratios, exactly in `ℚ`). -/

/-- Modelled from the spec: the Bayesian engine's likelihood, §4.4:
`P(m | N, k) = C(m−1, k−1) / C(N, k)` for `N ≥ m`, else 0. -/
def likelihood (m k n : ℕ) : ℚ :=
  if m ≤ n then (Nat.choose (m - 1) (k - 1) : ℚ) / (Nat.choose n k : ℚ)
  else 0

/-- Modelled from the spec: the Bayesian engine's grid, §4.4 step 1:
the integers from `m` to the bound inclusive, ascending. -/
def nValues (m bound : ℕ) : List ℕ :=
  (List.range (bound + 1 - m)).map (fun i => m + i)

/-- Modelled from the spec: the unnormalized posterior mass at each grid
point (§4.4 step 2, evaluated exactly instead of in log space). -/
def posteriorWeights (m k bound : ℕ) : List ℚ :=
  (nValues m bound).map (likelihood m k)

/-- Modelled from the spec: §4.4 step 3 — normalize so that the discrete
posterior sums to 1. -/
def posterior (m k bound : ℕ) : List ℚ :=
  let ws := posteriorWeights m k bound
  ws.map (fun w => w / ws.sum)

/-- Embedding of `chartData` in the `BayesianChart` component
(`src/unnamed/part_000`, lines 25–32): each grid value, in order, becomes
a point whose `probability` is `posterior[i]` at the same index
(`Math.round` on the integer grid value is the identity and is dropped). -/
def chartData (n_values : List ℕ) (post : List ℚ) : List (ℕ × ℚ) :=
  (List.range n_values.length).map (fun i => (n_values.getD i 0, post.getD i 0))

/-! ## DistributionChart.tsx — histogram binning

`histogramData` (`src/unnamed/part_002`, lines 25–59) asks d3's `bin()`
generator for bins over the domain `[min(allValues), max(allValues)]`
with `thresholds(50)`, then recounts each bin itself with the filter
`val >= bin.x0 && val < bin.x1`. A d3 bin list is contiguous — each bin's
`x1` is the next bin's `x0` — so it is represented below by its list of
edges; the counting predicate is the component's own filter. -/

/-- Embedding of the per-bin counting in `DistributionChart.histogramData`
(`src/unnamed/part_002`, lines 44–50): a bin with edges `(x0, x1)` counts
the values `v` with `x0 ≤ v < x1` — strict at the upper edge in every bin,
including the last. -/
def binCount (values : List ℚ) (x0 x1 : ℚ) : ℕ :=
  (values.filter (fun v => decide (x0 ≤ v) && decide (v < x1))).length

/-- A contiguous bin list from its edge list: consecutive edges form the
`(x0, x1)` pairs d3 returns. -/
def binsOfEdges (edges : List ℚ) : List (ℚ × ℚ) :=
  edges.zip edges.tail

/-- Embedding of the list of per-bin counts `histogramData` computes for
one estimate array over the d3 bins (`src/unnamed/part_002`, lines 40–58). -/
def histogramCounts (values : List ℚ) (edges : List ℚ) : List ℕ :=
  (binsOfEdges edges).map (fun b => binCount values b.1 b.2)

/-- The d3 edges for the counterexample data: for values spanning the
domain `[50, 100]` with `thresholds(50)`, `d3.ticks(50, 100, 50)` uses
step 1; d3's `bin()` drops ticks at or below the lower domain edge and
(because the domain was set explicitly) pops the tick equal to the upper
edge, leaving bins `[50,51), …, [99,100)` — edges `50, 51, …, 100`. -/
def d3EdgesExample : List ℚ := (List.range 51).map (fun (i : ℕ) => 50 + (i : ℚ))

/-! ## services/api.ts — base-URL derivation

```
const BASE_URL = import.meta.env.VITE_API_URL || 'http://localhost:5000';
const API_BASE_URL = BASE_URL.endsWith('/api') ? BASE_URL : `${BASE_URL}/api`;
const ROOT_BASE_URL = API_BASE_URL.replace('/api', '') || BASE_URL;
```
Strings are embedded as `List Char`. JavaScript's `String.replace` with a
string pattern replaces only the first occurrence. -/

/-- The `'/api'` pattern as a character list. -/
def slashApi : List Char := ['/', 'a', 'p', 'i']

/-- Embedding of JavaScript `String.prototype.replace` with a string
pattern: scan left to right and replace the first occurrence only
(or return the string unchanged when the pattern never occurs). -/
def replaceFirst (pat rep : List Char) : List Char → List Char
  | [] => []
  | c :: rest =>
    if pat <+: (c :: rest) then rep ++ (c :: rest).drop pat.length
    else c :: replaceFirst pat rep rest

/-- Embedding of `API_BASE_URL` from `src/frontend/src/services/api.ts`
(embedded in `src/frontend/src/types/simulation.ts`, lines 63–65):
append `'/api'` unless the configured base URL already ends with it. -/
def apiBaseUrl (base : List Char) : List Char :=
  if slashApi <:+ base then base else base ++ slashApi

/-- Embedding of `ROOT_BASE_URL` (same file, line 68):
`API_BASE_URL.replace('/api', '') || BASE_URL` — the replacement removes
the first `'/api'` occurrence, and an empty result is falsy, falling back
to `BASE_URL`. -/
def rootBaseUrl (base : List Char) : List Char :=
  let r := replaceFirst slashApi [] (apiBaseUrl base)
  if r = [] then base else r

end GermanTanks

namespace GermanTanks

lemma sampleSizes_eq (k : ℤ) :
    sampleSizes k =
      [5, 5 + sweepStep k, 5 + 2 * sweepStep k, 5 + 3 * sweepStep k,
       5 + 4 * sweepStep k, 5 + 5 * sweepStep k, 5 + 6 * sweepStep k,
       5 + 7 * sweepStep k, 5 + 8 * sweepStep k, 5 + 9 * sweepStep k] := by
  have h : List.range 10 = [0, 1, 2, 3, 4, 5, 6, 7, 8, 9] := rfl
  simp only [sampleSizes, sweepStep, h, List.map_cons, List.map_nil]
  norm_num

lemma sweepStep_pos (k : ℤ) : 0 < sweepStep k := by
  have h : (100 : ℤ) ≤ max (k * 2) 100 := le_max_right _ _
  simp only [sweepStep]
  omega

lemma sweepStep_le (k : ℤ) : 9 * sweepStep k ≤ max (k * 2) 100 - 5 := by
  have h : (100 : ℤ) ≤ max (k * 2) 100 := le_max_right _ _
  simp only [sweepStep]
  omega

/-- C1: the claim's validity predicate fails on the code: `isValid`
requires `truePopulation ≥ 100`, so `N = 50, k = 5` (which satisfies
`k < N`, `k ≥ 2`, `N ≥ 3`) is rejected by the controls. -/
theorem C1_counterexample :
    isValid 50 5 = false ∧ ((3 : ℤ) ≤ 50 ∧ (50 : ℤ) < 100 ∧ (2 : ℤ) ≤ 5 ∧ (5 : ℤ) < 50) := by
  constructor
  · rfl
  · norm_num

/-- C1 (amended): submission is permitted exactly when `k < N`, `k ≥ 2`
and `N ≥ 100`; in particular every `N ≥ 100` with `2 ≤ k < N` is
accepted, including `k = N − 1`. -/
theorem C1_isValid_iff (truePopulation sampleSize : ℤ) :
    isValid truePopulation sampleSize = true ↔
      (sampleSize < truePopulation ∧ 2 ≤ sampleSize ∧ 100 ≤ truePopulation) := by
  simp [isValid, and_assoc]

/-- C2: the claim fails on the code: for the accepted input
`N = 100, k = 99` the generated accuracy sweep contains the sample size
`110 ≥ N = 100`, violating the Scenario invariant `k < N`. -/
theorem C2_counterexample :
    isValid 100 99 = true ∧ (110 : ℤ) ∈ sampleSizes 99 ∧ ¬ ((110 : ℤ) < 100) := by
  refine ⟨rfl, ?_, by norm_num⟩
  rw [sampleSizes_eq]
  have h : sweepStep 99 = 21 := rfl
  rw [h]
  norm_num

/-- C2 (amended): whenever additionally `max(2k, 100) < N`, every sample
size in the generated accuracy-sweep request is strictly below `N`, so
the sweep preserves the Scenario invariant `k < N`. -/
theorem C2_sweep_below_N (N k : ℤ) (hk2 : 2 ≤ k) (hkN : k < N)
    (hbound : max (k * 2) 100 < N) :
    ∀ s ∈ sampleSizes k, s < N := by
  have hstep := sweepStep_pos k
  have hle := sweepStep_le k
  intro s hs
  rw [sampleSizes_eq] at hs
  simp only [List.mem_cons, List.not_mem_nil, or_false] at hs
  rcases hs with rfl | rfl | rfl | rfl | rfl | rfl | rfl | rfl | rfl | rfl <;> nlinarith

/-- C2 witness: at `N = 300, k = 20` the hypotheses hold, `95` is a
generated sample size (the largest, `5 + 9·10`), and it is below 300. -/
theorem C2_sweep_below_N_witness : (95 : ℤ) < 300 :=
  C2_sweep_below_N 300 20 (by norm_num) (by norm_num) (by norm_num) 95
    (by rw [sampleSizes_eq]
        have h : sweepStep 20 = 10 := rfl
        rw [h]
        norm_num)

/-- C7: for every sample size `k ≥ 2` the generated accuracy-sweep list
starts at 5 and is strictly ascending, so the accuracy results are
ordered by ascending sample size. -/
theorem C7_sweep_ascending (k : ℤ) (hk : 2 ≤ k) :
    (sampleSizes k).head? = some 5 ∧ List.Chain' (· < ·) (sampleSizes k) := by
  have hstep := sweepStep_pos k
  rw [sampleSizes_eq]
  refine ⟨rfl, ?_⟩
  simp only [List.chain'_cons, List.chain'_singleton, and_true]
  refine ⟨?_, ?_, ?_, ?_, ?_, ?_, ?_, ?_, ?_⟩ <;> nlinarith

/-- C7 witness: concrete instance at `k = 20`. -/
theorem C7_sweep_ascending_witness :
    (sampleSizes 20).head? = some 5 ∧ List.Chain' (· < ·) (sampleSizes 20) :=
  C7_sweep_ascending 20 (by norm_num)

/-- C3: for every observed maximum `m` and sample size `k ≥ 1` the MVUE
point estimate is `m·(1 + 1/k) − 1`; the computation fails with
`InvalidParameter` exactly when `k = 0`; the naive estimate is `m`. -/
theorem C3_estimates (m : ℚ) (k : ℕ) :
    (1 ≤ k → mvue_estimate m k = .ok (m * (1 + 1 / (k : ℚ)) - 1)) ∧
      (mvue_estimate m k = .error .InvalidParameter ↔ k = 0) ∧
      naive_estimate m = m := by
  rcases Nat.eq_zero_or_pos k with hk | hk
  · subst hk
    refine ⟨fun h => absurd h (by norm_num), ?_, rfl⟩
    simp [mvue_estimate]
  · have hk0 : k ≠ 0 := Nat.pos_iff_ne_zero.mp hk
    refine ⟨fun _ => ?_, ?_, rfl⟩
    · simp [mvue_estimate, hk0]
    · simp [mvue_estimate, hk0]

/-- C3 witness: at `m = 10, k = 4` the MVUE estimate is
`10·(1 + 1/4) − 1 = 23/2` and the naive estimate is `10`. -/
theorem C3_estimates_witness :
    mvue_estimate 10 4 = .ok (23 / 2) ∧ naive_estimate 10 = 10 := by
  have h := (C3_estimates 10 4).1 (by norm_num)
  refine ⟨?_, (C3_estimates 10 4).2.2⟩
  rw [h]
  norm_num

/-- C4: the simulate result record carries exactly the §6 contract fields
(`true_population`, `sample_size`, `naive_estimates`, `mvue_estimates`,
`naive_rmse`, `mvue_rmse`, `naive_bias`, `mvue_bias`, and `metadata` with
`iterations` and `computation_time_ms`), and the accuracy result carries
`true_population` and `results`, each result holding `sample_size`,
`naive_rmse`, `mvue_rmse`: every record is rebuilt in full from exactly
these named projections. -/
theorem C4_contract_fields (r : SimulationResponse) (a : AccuracyResponse)
    (p : AccuracyDataPoint) :
    r = SimulationResponse.mk r.true_population r.sample_size
          r.naive_estimates r.mvue_estimates r.naive_rmse r.mvue_rmse
          r.naive_bias r.mvue_bias
          (SimulationMetadata.mk r.metadata.iterations
            r.metadata.computation_time_ms) ∧
      a = AccuracyResponse.mk a.true_population a.results ∧
      p = AccuracyDataPoint.mk p.sample_size p.naive_rmse p.mvue_rmse :=
  ⟨rfl, rfl, rfl⟩

/-- C5: the claim is right and the code is wrong — the API client imports
`BayesianRequest` and `BayesianResponse` from `'../types/simulation'`, but
the type module exports only the six non-Bayesian names, so those imports
do not resolve to any definition. -/
theorem C5_bayesian_types_missing :
    "BayesianRequest" ∈ apiTsSimulationImports ∧
      "BayesianResponse" ∈ apiTsSimulationImports ∧
      "BayesianRequest" ∉ simulationTsExports ∧
      "BayesianResponse" ∉ simulationTsExports := by
  decide

/-- C6: the claim fails on the code: the metadata member is named
`computation_time_ms` in `src/frontend/src/types/simulation.ts`, and no
member named `computation_time` exists. -/
theorem C6_counterexample :
    "computation_time" ∉ simulationMetadataFieldNames ∧
      "iterations" ∈ simulationMetadataFieldNames ∧
      "computation_time_ms" ∈ simulationMetadataFieldNames := by
  decide

/-- C6 (amended): the `SimulationResult` metadata record has fields named
exactly `iterations` and `computation_time_ms` (with the `_ms` suffix, as
in the §6 contract): every metadata value is rebuilt in full from exactly
those two named projections. -/
theorem C6_metadata_fields (x : SimulationMetadata) :
    x = SimulationMetadata.mk x.iterations x.computation_time_ms ∧
      simulationMetadataFieldNames = ["iterations", "computation_time_ms"] :=
  ⟨rfl, rfl⟩

lemma sum_map_div (l : List ℚ) (c : ℚ) :
    (l.map (fun x => x / c)).sum = l.sum / c := by
  induction l with
  | nil => simp
  | cons a t ih => simp [add_div, ih]

lemma getD_range_map (l : List ℚ) :
    (List.range l.length).map (fun i => l.getD i 0) = l := by
  induction l with
  | nil => simp
  | cons a t ih =>
    rw [List.length_cons, List.range_succ_eq_map, List.map_cons, List.map_map]
    have h : ((fun i => (a :: t).getD i 0) ∘ Nat.succ) = fun i => t.getD i 0 := by
      funext i
      rfl
    rw [h, ih]
    rfl

lemma mem_nValues {m bound n : ℕ} (h : n ∈ nValues m bound) : m ≤ n := by
  simp only [nValues, List.mem_map, List.mem_range] at h
  obtain ⟨i, _, rfl⟩ := h
  exact Nat.le_add_right m i

lemma self_mem_nValues {m bound : ℕ} (h : m ≤ bound) : m ∈ nValues m bound := by
  simp only [nValues, List.mem_map, List.mem_range]
  exact ⟨0, by omega, by omega⟩

lemma likelihood_pos {m k n : ℕ} (hk : 1 ≤ k) (hkm : k ≤ m) (hmn : m ≤ n) :
    0 < likelihood m k n := by
  rw [likelihood, if_pos hmn]
  have hnum : 0 < Nat.choose (m - 1) (k - 1) := Nat.choose_pos (by omega)
  have hden : 0 < Nat.choose n k := Nat.choose_pos (by omega)
  exact div_pos (by exact_mod_cast hnum) (by exact_mod_cast hden)

lemma posteriorWeights_sum_pos {m k bound : ℕ} (hk : 1 ≤ k) (hkm : k ≤ m)
    (hmb : m ≤ bound) : 0 < (posteriorWeights m k bound).sum := by
  apply List.sum_pos
  · intro w hw
    simp only [posteriorWeights, List.mem_map] at hw
    obtain ⟨n, hn, rfl⟩ := hw
    exact likelihood_pos hk hkm (mem_nValues hn)
  · intro hnil
    have hmem : m ∈ nValues m bound := self_mem_nValues hmb
    have hempty : nValues m bound = [] :=
      List.map_eq_nil_iff.mp hnil
    rw [hempty] at hmem
    exact List.not_mem_nil m hmem

/-- C8: for every valid observation (`1 ≤ k ≤ m`) and grid bound
`bound ≥ m`, the posterior aligned with the grid is a normalized discrete
distribution — entries are non-negative and sum to exactly 1 (hence to 1
within `1e-9`) — and the values the chart plots are exactly these
probabilities, one per grid point. -/
theorem C8_posterior_normalized (m k bound : ℕ) (hk : 1 ≤ k) (hkm : k ≤ m)
    (hmb : m ≤ bound) :
    (∀ p ∈ posterior m k bound, 0 ≤ p) ∧
      (posterior m k bound).sum = 1 ∧
      |(posterior m k bound).sum - 1| ≤ 1 / 1000000000 ∧
      (chartData (nValues m bound) (posterior m k bound)).map Prod.snd =
        posterior m k bound := by
  have hS : 0 < (posteriorWeights m k bound).sum :=
    posteriorWeights_sum_pos hk hkm hmb
  have hsum : (posterior m k bound).sum = 1 := by
    rw [posterior]
    rw [sum_map_div]
    exact div_self (ne_of_gt hS)
  refine ⟨?_, hsum, ?_, ?_⟩
  · intro p hp
    simp only [posterior, List.mem_map] at hp
    obtain ⟨w, hw, rfl⟩ := hp
    simp only [posteriorWeights, List.mem_map] at hw
    obtain ⟨n, hn, rfl⟩ := hw
    exact le_of_lt (div_pos (likelihood_pos hk hkm (mem_nValues hn)) hS)
  · rw [hsum]
    norm_num
  · have hlen : (nValues m bound).length = (posterior m k bound).length := by
      simp [posterior, posteriorWeights]
    rw [chartData, List.map_map]
    have h : (Prod.snd ∘ fun i => ((nValues m bound).getD i 0,
        (posterior m k bound).getD i 0)) =
        fun i => (posterior m k bound).getD i 0 := rfl
    rw [h, hlen, getD_range_map]

/-- C8 witness: concrete instance at `m = 5, k = 3, bound = 10` — the
posterior sums to exactly 1, is within `1e-9` of 1, and the chart plots
exactly the posterior values. -/
theorem C8_posterior_normalized_witness :
    (posterior 5 3 10).sum = 1 ∧
      |(posterior 5 3 10).sum - 1| ≤ 1 / 1000000000 ∧
      (chartData (nValues 5 10) (posterior 5 3 10)).map Prod.snd =
        posterior 5 3 10 :=
  (C8_posterior_normalized 5 3 10 (by norm_num) (by norm_num) (by norm_num)).2

lemma binCount_cons (v : ℚ) (t : List ℚ) (x0 x1 : ℚ) :
    binCount (v :: t) x0 x1 =
      (if x0 ≤ v ∧ v < x1 then 1 else 0) + binCount t x0 x1 := by
  simp only [binCount, List.filter_cons]
  by_cases h : x0 ≤ v ∧ v < x1
  · rw [if_pos h, if_pos (by simp [h.1, h.2])]
    simp [add_comm]
  · rw [if_neg h, if_neg ?_, zero_add]
    simp only [Bool.and_eq_true, decide_eq_true_eq]
    exact h

lemma indicator_interval_split (a b c v : ℚ) (hab : a ≤ b) (hbc : b ≤ c) :
    ((if a ≤ v ∧ v < b then 1 else 0) : ℕ) +
        (if b ≤ v ∧ v < c then 1 else 0) =
      if a ≤ v ∧ v < c then 1 else 0 := by
  by_cases h2 : v < b
  · have hnb : ¬ (b ≤ v ∧ v < c) := fun h => absurd h2 (not_lt.mpr h.1)
    have hvc : v < c := lt_of_lt_of_le h2 hbc
    by_cases h1 : a ≤ v
    · simp [h1, h2, hvc, hnb]
    · simp [h1, hnb]
  · have hbv : b ≤ v := not_lt.mp h2
    have h1 : a ≤ v := le_trans hab hbv
    by_cases h3 : v < c
    · simp [h1, h2, h3, hbv]
    · simp [h1, h2, h3]

lemma binCount_split (values : List ℚ) (a b c : ℚ) (hab : a ≤ b)
    (hbc : b ≤ c) :
    binCount values a b + binCount values b c = binCount values a c := by
  induction values with
  | nil => simp [binCount]
  | cons v t ih =>
    rw [binCount_cons, binCount_cons, binCount_cons, ← ih]
    have h := indicator_interval_split a b c v hab hbc
    omega

lemma binCount_self (values : List ℚ) (a : ℚ) : binCount values a a = 0 := by
  rw [binCount, List.length_eq_zero]
  apply List.filter_eq_nil_iff.mpr
  intro v _
  simp only [Bool.and_eq_true, decide_eq_true_eq, not_and]
  intro h1 h2
  exact absurd (lt_of_le_of_lt h1 h2) (lt_irrefl a)

lemma chain_head_le_getLast :
    ∀ (l : List ℚ) (a b : ℚ), List.Chain' (· ≤ ·) l →
      l.head? = some a → l.getLast? = some b → a ≤ b := by
  intro l
  induction l with
  | nil => intro a b _ h; simp at h
  | cons x rest ih =>
    intro a b hchain hh hl
    have hxa : x = a := by simpa using hh
    subst hxa
    cases rest with
    | nil =>
      have hxb : x = b := by simpa using hl
      exact le_of_eq hxb
    | cons y rest2 =>
      have hxy : x ≤ y := (List.chain'_cons.mp hchain).1
      have htail : List.Chain' (· ≤ ·) (y :: rest2) :=
        (List.chain'_cons.mp hchain).2
      have hl2 : (y :: rest2).getLast? = some b := by
        rw [← hl, List.getLast?_cons_cons]
      exact le_trans hxy (ih y b htail rfl hl2)

lemma histogramCounts_sum (values : List ℚ) :
    ∀ (edges : List ℚ) (lo hi : ℚ), List.Chain' (· ≤ ·) edges →
      edges.head? = some lo → edges.getLast? = some hi →
      (histogramCounts values edges).sum = binCount values lo hi := by
  intro edges
  induction edges with
  | nil => intro lo hi _ hh _; simp at hh
  | cons e rest ih =>
    intro lo hi hchain hh hl
    have hel : e = lo := by simpa using hh
    subst hel
    cases rest with
    | nil =>
      have hehi : e = hi := by simpa using hl
      subst hehi
      simp [histogramCounts, binsOfEdges, binCount_self]
    | cons e2 rest2 =>
      have he12 : e ≤ e2 := (List.chain'_cons.mp hchain).1
      have htail : List.Chain' (· ≤ ·) (e2 :: rest2) :=
        (List.chain'_cons.mp hchain).2
      have hl2 : (e2 :: rest2).getLast? = some hi := by
        rw [← hl, List.getLast?_cons_cons]
      have he2hi : e2 ≤ hi := chain_head_le_getLast _ e2 hi htail rfl hl2
      have hrec := ih e2 hi htail rfl hl2
      have hunfold : histogramCounts values (e :: e2 :: rest2) =
          binCount values e e2 :: histogramCounts values (e2 :: rest2) := rfl
      rw [hunfold, List.sum_cons, hrec, binCount_split values e e2 hi he12 he2hi]

/-- C9: the claim fails on the code: for the simulation data
`naive_estimates = mvue_estimates = [50, 100]` (domain `[50, 100]`, d3
edges `50, 51, …, 100`), the per-bin counts use the strict filter
`v < x1` in every bin, so the overall maximum `100` is counted in no bin
and the counts sum to 1, not to the array length 2. -/
theorem C9_counterexample :
    (histogramCounts [50, 100] d3EdgesExample).sum = 1 ∧
      ([(50 : ℚ), 100] : List ℚ).length = 2 := by
  have hchain : List.Chain' (· ≤ ·) d3EdgesExample := by
    rw [d3EdgesExample, List.chain'_map]
    rw [show (51 : ℕ) = Nat.succ 50 from rfl, List.chain'_range_succ]
    intro m hm
    push_cast
    linarith
  have hhead : d3EdgesExample.head? = some 50 := by
    rw [d3EdgesExample, show (51 : ℕ) = Nat.succ 50 from rfl,
      List.range_succ_eq_map]
    norm_num
  have hlast : d3EdgesExample.getLast? = some 100 := by
    rw [d3EdgesExample, show (51 : ℕ) = Nat.succ 50 from rfl,
      List.range_succ, List.map_append]
    norm_num
  refine ⟨?_, rfl⟩
  rw [histogramCounts_sum [50, 100] d3EdgesExample 50 100 hchain hhead hlast]
  decide

/-- C9 (amended): for every simulation result and every contiguous,
ascending d3 edge list spanning `[lo, hi]` with `lo` below all data, the
binning counts exactly the values strictly below the upper domain edge
`hi` (the overall maximum of the combined data): the per-bin naive counts
sum to the number of naive estimates below `hi`, and likewise for MVUE —
values equal to the overall maximum fall in no bin. -/
theorem C9_histogram_partition (naive mvue edges : List ℚ) (lo hi : ℚ)
    (hchain : List.Chain' (· ≤ ·) edges)
    (hhead : edges.head? = some lo)
    (hlast : edges.getLast? = some hi)
    (hnaive : ∀ v ∈ naive, lo ≤ v)
    (hmvue : ∀ v ∈ mvue, lo ≤ v) :
    (histogramCounts naive edges).sum =
        (naive.filter (fun v => decide (v < hi))).length ∧
      (histogramCounts mvue edges).sum =
        (mvue.filter (fun v => decide (v < hi))).length := by
  have key : ∀ (values : List ℚ), (∀ v ∈ values, lo ≤ v) →
      (histogramCounts values edges).sum =
        (values.filter (fun v => decide (v < hi))).length := by
    intro values hlo
    rw [histogramCounts_sum values edges lo hi hchain hhead hlast, binCount]
    congr 1
    apply List.filter_congr
    intro v hv
    simp [hlo v hv]
  exact ⟨key naive hnaive, key mvue hmvue⟩

/-- C9 witness: concrete instance with edges `50, 75, 100` and data
`[50, 100]` / `[60]`. -/
theorem C9_histogram_partition_witness :
    (histogramCounts [50, 100] [50, 75, 100]).sum =
        (([(50 : ℚ), 100] : List ℚ).filter (fun v => decide (v < 100))).length ∧
      (histogramCounts [60] [50, 75, 100]).sum =
        (([(60 : ℚ)] : List ℚ).filter (fun v => decide (v < 100))).length :=
  C9_histogram_partition [50, 100] [60] [50, 75, 100] 50 100
    (by norm_num [List.chain'_cons]) rfl rfl
    (by intro v hv; simp at hv; rcases hv with rfl | rfl <;> norm_num)
    (by intro v hv; simp at hv; subst hv; norm_num)

lemma replaceFirst_unique (pat : List Char) (hp : pat ≠ []) :
    ∀ (pre : List Char), (∀ s t, pre ++ pat = s ++ pat ++ t → t = []) →
      replaceFirst pat [] (pre ++ pat) = pre := by
  intro pre
  induction pre with
  | nil =>
    intro _
    obtain ⟨c, p', rfl⟩ := List.exists_cons_of_ne_nil hp
    rw [List.nil_append]
    simp only [replaceFirst]
    rw [if_pos (List.prefix_refl _)]
    simp
  | cons c pre' ih =>
    intro huniq
    have hnpre : ¬ ((pat : List Char) <+: (c :: (pre' ++ pat))) := by
      intro hpref
      obtain ⟨t, ht⟩ := hpref
      have ht0 : t = [] := by
        apply huniq [] t
        rw [List.nil_append, List.cons_append, ← ht]
      subst ht0
      rw [List.append_nil] at ht
      have hlen := congrArg List.length ht
      simp [List.length_cons, List.length_append] at hlen
      omega
    show replaceFirst pat [] (c :: (pre' ++ pat)) = c :: pre'
    simp only [replaceFirst]
    rw [if_neg hnpre]
    congr 1
    apply ih
    intro s t h
    apply huniq (c :: s) t
    rw [List.cons_append, List.cons_append, h]
    simp [List.append_assoc]

lemma unique_of_not_infix_dropLast (pat api pre : List Char)
    (hsplit : api = pre ++ pat) (h : ¬ pat <:+: api.dropLast) :
    ∀ s t, pre ++ pat = s ++ pat ++ t → t = [] := by
  intro s t heq
  by_contra ht
  rcases List.eq_nil_or_concat t with rfl | ⟨t', c', rfl⟩
  · exact ht rfl
  · have hapi : api.dropLast = s ++ pat ++ t' := by
      rw [hsplit, heq, List.concat_eq_append,
        show s ++ pat ++ (t' ++ [c']) = (s ++ pat ++ t') ++ [c'] by
          simp [List.append_assoc]]
      simp
    exact h ⟨s, t', hapi.symm⟩

/-- C10: the claim fails on the code: for the configured base URL
`http://apihost.com`, `'/api'` occurs early in the URL (`//apihost`), so
`replace('/api', '')` removes that inner occurrence rather than the
trailing segment, and composing the root base URL with `'/api'` does not
return the API base URL. -/
theorem C10_counterexample :
    rootBaseUrl ("http://apihost.com".toList) ++ slashApi ≠
      apiBaseUrl ("http://apihost.com".toList) := by
  decide

/-- C10 (amended): the derived API base URL always ends with `'/api'`;
and whenever `'/api'` does not also occur earlier in the API base URL
(and the configured base URL is not `'/api'` itself, where the falsy
fallback applies), removing it strips exactly the trailing segment, so
the root base URL composed with `'/api'` round-trips to the API base
URL. -/
theorem C10_url_derivation (base : List Char) :
    slashApi <:+ apiBaseUrl base ∧
      (¬ slashApi <:+: (apiBaseUrl base).dropLast → base ≠ slashApi →
        rootBaseUrl base ++ slashApi = apiBaseUrl base) := by
  constructor
  · by_cases h : slashApi <:+ base
    · rw [apiBaseUrl, if_pos h]; exact h
    · rw [apiBaseUrl, if_neg h]; exact List.suffix_append _ _
  · intro hinf hne
    by_cases h : slashApi <:+ base
    · rw [apiBaseUrl, if_pos h] at hinf ⊢
      obtain ⟨pre, hpre⟩ := h
      have huniq := unique_of_not_infix_dropLast slashApi base pre hpre.symm hinf
      have hrep : replaceFirst slashApi [] (apiBaseUrl base) = pre := by
        rw [apiBaseUrl, if_pos ⟨pre, hpre⟩, ← hpre]
        exact replaceFirst_unique slashApi (by decide) pre huniq
      have hpre_ne : pre ≠ [] := by
        intro h0
        subst h0
        rw [List.nil_append] at hpre
        exact hne hpre.symm
      rw [rootBaseUrl, hrep, if_neg hpre_ne, hpre]
    · rw [apiBaseUrl, if_neg h] at hinf ⊢
      have huniq := unique_of_not_infix_dropLast slashApi (base ++ slashApi)
        base rfl hinf
      have hrep : replaceFirst slashApi [] (apiBaseUrl base) = base := by
        rw [apiBaseUrl, if_neg h]
        exact replaceFirst_unique slashApi (by decide) base huniq
      rcases eq_or_ne base [] with rfl | hbne
      · rw [rootBaseUrl, hrep]
        simp
      · rw [rootBaseUrl, hrep, if_neg hbne]

/-- C10 witness: for the base URL `http://example.com` (no early `'/api'`
occurrence) the API base URL ends with `'/api'` and the root base URL
round-trips. -/
theorem C10_url_derivation_witness :
    slashApi <:+ apiBaseUrl ("http://example.com".toList) ∧
      rootBaseUrl ("http://example.com".toList) ++ slashApi =
        apiBaseUrl ("http://example.com".toList) :=
  ⟨(C10_url_derivation _).1,
    (C10_url_derivation _).2 (by decide) (by decide)⟩

end GermanTanks
